import Mathlib

/-!
Shallow embedding of the design-token extraction engine
(pattern matcher, color analyzer, spacing analyzer, typography analyzer),
translated from the TypeScript source.  JavaScript numbers are modelled as
rationals (`ℚ`): every arithmetic operation the embedded code performs is
exact on the inputs appearing in the claims, and the divisibility and
comparison tests are stated so that the `=== 0` and `<` outcomes agree with
IEEE doubles on those inputs.  JavaScript strings are modelled as `List Char`.
-/

set_option maxRecDepth 100000

namespace DesignMirror

attribute [local semireducible] Rat.inv Rat.mul Rat.add Rat.sub

/-- Stable insertion sort with a boolean comparator, modelling
`Array.prototype.sort` (stable per ES2019).  `le a b = true` means `a` may be
placed before `b`; processing the head after sorting the tail keeps the
original order of tied elements, like the engine's stable sorts. -/
def orderedInsert {α : Type} (le : α → α → Bool) (a : α) : List α → List α
  | [] => [a]
  | b :: l => if le a b then a :: b :: l else b :: orderedInsert le a l

/-- Insertion sort (see `orderedInsert`). -/
def sortBy {α : Type} (le : α → α → Bool) : List α → List α
  | [] => []
  | a :: l => orderedInsert le a (sortBy le l)

theorem perm_orderedInsert {α : Type} (le : α → α → Bool) (a : α) :
    ∀ l : List α, (orderedInsert le a l).Perm (a :: l) := by
  intro l
  induction l with
  | nil => exact List.Perm.refl _
  | cons b l ih =>
    simp only [orderedInsert]
    split
    · exact List.Perm.refl _
    · exact (ih.cons b).trans (List.Perm.swap a b l)

theorem perm_sortBy {α : Type} (le : α → α → Bool) :
    ∀ l : List α, (sortBy le l).Perm l := by
  intro l
  induction l with
  | nil => exact List.Perm.refl _
  | cons a l ih =>
    exact (perm_orderedInsert le a (sortBy le l)).trans (ih.cons a)

theorem mem_sortBy {α : Type} {le : α → α → Bool} {a : α} {l : List α} :
    a ∈ sortBy le l ↔ a ∈ l :=
  (perm_sortBy le l).mem_iff

theorem length_sortBy {α : Type} (le : α → α → Bool) (l : List α) :
    (sortBy le l).length = l.length :=
  (perm_sortBy le l).length_eq

/-- The JavaScript test `v % c === 0` on finite doubles: it holds exactly when
`c ≠ 0` and `v / c` is an integer (`v % 0` is `NaN`, which never compares equal
to `0`).  The `%` operator truncates rather than floors, but `v - c * trunc
(v / c) = 0` and `v - c * floor (v / c) = 0` are both equivalent to
`v / c ∈ ℤ`, so the floor form below has the same `=== 0` outcome. -/
def jsDivisible (v c : ℚ) : Bool :=
  decide (c ≠ 0) && decide (v - c * (⌊v / c⌋ : ℚ) = 0)

theorem jsDivisible_iff {v c : ℚ} :
    jsDivisible v c = true ↔ c ≠ 0 ∧ ∃ k : ℤ, v = k * c := by
  simp only [jsDivisible, Bool.and_eq_true, decide_eq_true_eq]
  constructor
  · rintro ⟨hc, h⟩
    exact ⟨hc, ⟨⌊v / c⌋, by linarith⟩⟩
  · rintro ⟨hc, k, rfl⟩
    have hdiv : (k : ℚ) * c / c = (k : ℚ) := by field_simp
    refine ⟨hc, ?_⟩
    rw [hdiv, Int.floor_intCast]
    ring

/-- `detectBaseUnit`'s per-candidate score: the number of input values that are
exact multiples of the candidate (source: the inner `for (const value of
values) if (value % candidate === 0) score++` loop). -/
def scoreOf (values : List ℚ) (c : ℚ) : ℕ :=
  values.countP (fun v => jsDivisible v c)

/-- First-occurrence deduplication, modelling insertion into a JavaScript
`Map`: a key keeps its first insertion position, later insertions of the same
key are dropped (re-setting a duplicate candidate stores the same recomputed
score, so only the position matters). -/
def firstDedup {α : Type} [DecidableEq α] (l : List α) : List α :=
  l.foldl (fun acc a => if a ∈ acc then acc else acc ++ [a]) []

/-- The selection loop of `detectBaseUnit`: start from `bestCandidate = null`,
`bestScore = 0`, and take a candidate only on a strict score improvement, so
the first candidate attaining the maximal score wins. -/
def selectBest : Option ℚ → ℕ → List (ℚ × ℕ) → Option ℚ × ℕ
  | best, bestScore, [] => (best, bestScore)
  | best, bestScore, (c, s) :: rest =>
    if bestScore < s then selectBest (some c) s rest else selectBest best bestScore rest

/-- `detectBaseUnit` from the pattern matcher: score every candidate, keep the
first candidate with the strictly highest score, and return it only when that
score reaches 50% of the number of input values. -/
def detectBaseUnit (values : List ℚ) (candidates : List ℚ) : Option ℚ :=
  let pairs := (firstDedup candidates).map (fun c => (c, scoreOf values c))
  let best := selectBest none 0 pairs
  if ((values.length : ℚ) * (1 / 2) : ℚ) ≤ (best.2 : ℚ) then best.1 else none

/-- The fixed ratio table of `detectModularScale` (Minor Second 1.067 … Golden
Ratio 1.618), in source order. -/
def commonRatios : List ℚ :=
  [1067 / 1000, 1125 / 1000, 12 / 10, 125 / 100, 1333 / 1000, 1414 / 1000,
    15 / 10, 1618 / 1000]

/-- One adjacent pair `(a, b)` of the sorted list counts for a candidate ratio
when `|b / a - ratio| < tolerance` — an absolute comparison in the source
(`diff < tolerance`).  The `a ≠ 0` guard models IEEE division: when `a = 0`
the JavaScript quotient is `±Infinity` or `NaN`, whose distance to the ratio
is never `< tolerance`. -/
def ratioMatches (a b ratio tolerance : ℚ) : Bool :=
  decide (a ≠ 0) && decide (|b / a - ratio| < tolerance)

/-- Score of one candidate ratio in `detectModularScale`: the number of
adjacent pairs of the sorted value list whose actual ratio matches. -/
def pairScore (sorted : List ℚ) (ratio tolerance : ℚ) : ℕ :=
  (sorted.zip sorted.tail).countP (fun p => ratioMatches p.1 p.2 ratio tolerance)

/-- One iteration of the ratio loop of `detectModularScale`: compute the
candidate's score and confidence, and replace the best ratio only on a strict
confidence improvement that also reaches the 0.5 confidence floor. -/
def modularStep (sorted : List ℚ) (tolerance : ℚ) (best : Option ℚ × ℚ) (ratio : ℚ) :
    Option ℚ × ℚ :=
  let score := pairScore sorted ratio tolerance
  let confidence : ℚ := (score : ℚ) / ((sorted.length : ℚ) - 1)
  if best.2 < confidence ∧ (1 / 2 : ℚ) ≤ confidence then (some ratio, confidence)
  else best

/-- `detectModularScale` from the pattern matcher: needs at least 3 values,
sorts them ascending, scores each ratio of `commonRatios` in order, keeps a
ratio only on a strict confidence improvement and only when its confidence
(matching-pair fraction) is at least 0.5, and returns the kept ratio with its
confidence, or null when no ratio was kept. -/
def detectModularScale (values : List ℚ) (tolerance : ℚ) : Option (ℚ × ℚ) :=
  if values.length < 3 then none
  else
    let sortedValues := sortBy (fun a b => decide (a ≤ b)) values
    let best := commonRatios.foldl (modularStep sortedValues tolerance)
      ((none : Option ℚ), (0 : ℚ))
    match best.1 with
    | some r => some (r, best.2)
    | none => none

/-- The matching test that the specification describes for `detectModularScale`
(but the source does not implement): a pair matches when the actual ratio is
within the RELATIVE tolerance of the candidate, `|b / a - ratio| <
tolerance * ratio`. -/
def ratioMatchesRel (a b ratio tolerance : ℚ) : Bool :=
  decide (a ≠ 0) && decide (|b / a - ratio| < tolerance * ratio)

/-- `detectModularScale` as the specification words it: identical to the
source algorithm except that adjacent pairs are matched with the relative
tolerance `ratioMatchesRel`.  Used only to compare the source behaviour with
the spec's description. -/
def detectModularScaleRel (values : List ℚ) (tolerance : ℚ) : Option (ℚ × ℚ) :=
  if values.length < 3 then none
  else
    let sortedValues := sortBy (fun a b => decide (a ≤ b)) values
    let best := commonRatios.foldl
      (fun best ratio =>
        let score := (sortedValues.zip sortedValues.tail).countP
          (fun p => ratioMatchesRel p.1 p.2 ratio tolerance)
        let confidence : ℚ := (score : ℚ) / ((sortedValues.length : ℚ) - 1)
        if best.2 < confidence ∧ (1 / 2 : ℚ) ≤ confidence then (some ratio, confidence)
        else best)
      ((none : Option ℚ), (0 : ℚ))
    match best.1 with
    | some r => some (r, best.2)
    | none => none

/-- The running maximum of the scores, as `selectBest` tracks it. -/
def runningMax (init : ℕ) (pairs : List (ℚ × ℕ)) : ℕ :=
  pairs.foldl (fun m p => max m p.2) init

theorem runningMax_nil (init : ℕ) : runningMax init [] = init := rfl

theorem runningMax_cons (init : ℕ) (p : ℚ × ℕ) (pairs : List (ℚ × ℕ)) :
    runningMax init (p :: pairs) = runningMax (max init p.2) pairs := rfl

theorem le_runningMax (init : ℕ) (pairs : List (ℚ × ℕ)) : init ≤ runningMax init pairs := by
  induction pairs generalizing init with
  | nil => exact Nat.le_refl _
  | cons p rest ih =>
    exact Nat.le_trans (Nat.le_max_left init p.2) (ih (max init p.2))

theorem mem_le_runningMax {pairs : List (ℚ × ℕ)} {p : ℚ × ℕ} (hp : p ∈ pairs) (init : ℕ) :
    p.2 ≤ runningMax init pairs := by
  induction pairs generalizing init with
  | nil => cases hp
  | cons q rest ih =>
    rcases List.mem_cons.mp hp with h | h
    · subst h
      exact Nat.le_trans (Nat.le_max_right init p.2) (le_runningMax _ rest)
    · exact ih h _

theorem runningMax_eq_of_all_le {pairs : List (ℚ × ℕ)} {init : ℕ}
    (h : ∀ p ∈ pairs, p.2 ≤ init) : runningMax init pairs = init := by
  induction pairs with
  | nil => rfl
  | cons q rest ih =>
    rw [runningMax_cons, Nat.max_eq_left (h q (List.mem_cons_self q rest))]
    exact ih (fun p hp => h p (List.mem_cons_of_mem q hp))

theorem selectBest_score (best : Option ℚ) (bestScore : ℕ) (pairs : List (ℚ × ℕ)) :
    (selectBest best bestScore pairs).2 = runningMax bestScore pairs := by
  induction pairs generalizing best bestScore with
  | nil => rfl
  | cons p rest ih =>
    rcases p with ⟨c, s⟩
    simp only [selectBest, runningMax_cons]
    by_cases h : bestScore < s
    · rw [if_pos h, ih, Nat.max_eq_right (Nat.le_of_lt h)]
    · rw [if_neg h, ih, Nat.max_eq_left (Nat.le_of_not_lt h)]

theorem selectBest_of_all_le {pairs : List (ℚ × ℕ)} {bestScore : ℕ}
    (h : ∀ p ∈ pairs, p.2 ≤ bestScore) (best : Option ℚ) :
    selectBest best bestScore pairs = (best, bestScore) := by
  induction pairs with
  | nil => rfl
  | cons p rest ih =>
    rcases p with ⟨c, s⟩
    have hs : s ≤ bestScore := h (c, s) (List.mem_cons_self _ rest)
    simp only [selectBest, if_neg (Nat.not_lt.mpr hs)]
    exact ih (fun q hq => h q (List.mem_cons_of_mem _ hq))

/-- If some score strictly beats the initial one, `selectBest` returns the
first pair attaining the overall running maximum: every pair before it scores
strictly less. -/
theorem selectBest_first_argmax :
    ∀ (pairs : List (ℚ × ℕ)) (best : Option ℚ) (bestScore : ℕ),
      bestScore < runningMax bestScore pairs →
      ∃ l₁ c l₂, pairs = l₁ ++ (c, runningMax bestScore pairs) :: l₂ ∧
        (selectBest best bestScore pairs).1 = some c ∧
        (∀ p ∈ l₁, p.2 < runningMax bestScore pairs) := by
  intro pairs
  induction pairs with
  | nil => intro best bestScore h; exact absurd h (Nat.lt_irrefl _)
  | cons p rest ih =>
    intro best bestScore h
    rcases p with ⟨c₀, s₀⟩
    rw [runningMax_cons] at h ⊢
    by_cases h₀ : bestScore < s₀
    · rw [Nat.max_eq_right (Nat.le_of_lt h₀)] at h ⊢
      by_cases hrest : ∀ q ∈ rest, q.2 ≤ s₀
      · have hM : runningMax s₀ rest = s₀ := runningMax_eq_of_all_le hrest
        refine ⟨[], c₀, rest, ?_, ?_, ?_⟩
        · rw [hM]; rfl
        · simp only [selectBest, if_pos h₀]
          rw [selectBest_of_all_le hrest (some c₀)]
        · intro q hq; cases hq
      · push_neg at hrest
        rcases hrest with ⟨q, hq, hqs⟩
        have hlt : s₀ < runningMax s₀ rest :=
          Nat.lt_of_lt_of_le hqs (mem_le_runningMax hq s₀)
        rcases ih (some c₀) s₀ hlt with ⟨l₁, c, l₂, hsplit, hfst, hl₁⟩
        refine ⟨(c₀, s₀) :: l₁, c, l₂, ?_, ?_, ?_⟩
        · exact congrArg (List.cons (c₀, s₀)) hsplit
        · simp only [selectBest, if_pos h₀]; exact hfst
        · intro q hq
          rcases List.mem_cons.mp hq with h' | h'
          · subst h'; exact hlt
          · exact hl₁ q h'
    · rw [Nat.max_eq_left (Nat.le_of_not_lt h₀)] at h ⊢
      rcases ih best bestScore h with ⟨l₁, c, l₂, hsplit, hfst, hl₁⟩
      refine ⟨(c₀, s₀) :: l₁, c, l₂, ?_, ?_, ?_⟩
      · exact congrArg (List.cons (c₀, s₀)) hsplit
      · simp only [selectBest, if_neg h₀]; exact hfst
      · intro q hq
        rcases List.mem_cons.mp hq with h' | h'
        · subst h'
          exact Nat.lt_of_le_of_lt (Nat.le_of_not_lt h₀) h
        · exact hl₁ q h'

theorem mem_firstDedup {α : Type} [DecidableEq α] {a : α} {l : List α} :
    a ∈ firstDedup l ↔ a ∈ l := by
  have key : ∀ (l : List α) (acc : List α),
      a ∈ l.foldl (fun acc a => if a ∈ acc then acc else acc ++ [a]) acc ↔ a ∈ acc ∨ a ∈ l := by
    intro l
    induction l with
    | nil => intro acc; simp
    | cons b rest ih =>
      intro acc
      simp only [List.foldl_cons, ih]
      by_cases hb : b ∈ acc
      · rw [if_pos hb]
        constructor
        · rintro (h | h)
          · exact Or.inl h
          · exact Or.inr (List.mem_cons_of_mem b h)
        · rintro (h | h)
          · exact Or.inl h
          · rcases List.mem_cons.mp h with h' | h'
            · exact Or.inl (h' ▸ hb)
            · exact Or.inr h'
      · rw [if_neg hb]
        simp only [List.mem_append, List.mem_singleton, List.mem_cons]
        tauto
  simpa using key l []

theorem map_eq_append_cons {α β : Type} {f : α → β} :
    ∀ {l₁ : List β} {L : List α} {b : β} {l₂ : List β},
      L.map f = l₁ ++ b :: l₂ →
      ∃ L₁ a L₂, L = L₁ ++ a :: L₂ ∧ L₁.map f = l₁ ∧ f a = b ∧ L₂.map f = l₂ := by
  intro l₁
  induction l₁ with
  | nil =>
    intro L b l₂ h
    cases L with
    | nil => simp at h
    | cons a L' =>
      simp only [List.map_cons, List.nil_append, List.cons.injEq] at h
      exact ⟨[], a, L', rfl, rfl, h.1, h.2⟩
  | cons x l₁ ih =>
    intro L b l₂ h
    cases L with
    | nil => simp at h
    | cons a L' =>
      simp only [List.map_cons, List.cons_append, List.cons.injEq] at h
      rcases ih h.2 with ⟨L₁, a', L₂, hL, hmap, hfa, hmap2⟩
      refine ⟨a :: L₁, a', L₂, by rw [hL]; rfl, ?_, hfa, hmap2⟩
      simp [h.1, hmap]

/-- When the `detectBaseUnit` selection loop over the scored candidate list
returns a candidate, that candidate carries the maximal score and is the
first list entry attaining it. -/
theorem selectBest_scores_spec (values : List ℚ) (L : List ℚ) (c : ℚ)
    (h : (selectBest none 0 (L.map (fun d => (d, scoreOf values d)))).1 = some c) :
    c ∈ L ∧
    scoreOf values c = runningMax 0 (L.map (fun d => (d, scoreOf values d))) ∧
    ∃ L₁ L₂, L = L₁ ++ c :: L₂ ∧ ∀ d ∈ L₁, scoreOf values d < scoreOf values c := by
  have hM0 : 0 < runningMax 0 (L.map (fun d => (d, scoreOf values d))) := by
    by_contra h0
    push_neg at h0
    have hzero : ∀ p ∈ L.map (fun d => (d, scoreOf values d)), p.2 ≤ 0 :=
      fun p hp => le_trans (mem_le_runningMax hp 0) h0
    rw [selectBest_of_all_le hzero none] at h
    cases h
  rcases selectBest_first_argmax _ none 0 hM0 with ⟨l₁, c', l₂, hsplit, hfst, hl₁⟩
  rw [hfst] at h
  injection h with hc
  rw [hc] at hsplit
  rcases map_eq_append_cons hsplit with ⟨L₁, a, L₂, hLs, hm1, hfa, hm2⟩
  have ha : a = c ∧ scoreOf values a =
      runningMax 0 (L.map (fun d => (d, scoreOf values d))) := by
    simpa using hfa
  rcases ha with ⟨rfl, hs⟩
  refine ⟨?_, hs, L₁, L₂, hLs, ?_⟩
  · rw [hLs]
    exact List.mem_append_right _ (List.mem_cons_self _ _)
  · intro d hd
    have hmem : (fun d => (d, scoreOf values d)) d ∈ l₁ := by
      rw [← hm1]
      exact List.mem_map_of_mem _ hd
    have := hl₁ _ hmem
    rw [hs]
    exact this

/-- Full behavioural characterization of `detectBaseUnit`: an empty value list
yields null; a returned candidate is a listed candidate whose score is maximal,
covers at least 50% of the values, and is the first such candidate in the
(first-occurrence deduplicated) candidate list; a null answer on a non-empty
value list means no candidate's score covers 50% of the values. -/
theorem detectBaseUnit_characterization (values candidates : List ℚ) :
    (values = [] → detectBaseUnit values candidates = none)
    ∧ (∀ c, detectBaseUnit values candidates = some c →
        c ∈ candidates ∧
        values.length ≤ 2 * scoreOf values c ∧
        (∀ d ∈ candidates, scoreOf values d ≤ scoreOf values c) ∧
        ∃ l₁ l₂, firstDedup candidates = l₁ ++ c :: l₂ ∧
          ∀ d ∈ l₁, scoreOf values d < scoreOf values c)
    ∧ (values ≠ [] → detectBaseUnit values candidates = none →
        ∀ d ∈ candidates, 2 * scoreOf values d < values.length) := by
  have hdb : detectBaseUnit values candidates =
      if ((values.length : ℚ) * (1 / 2) : ℚ) ≤
          (((selectBest none 0
            ((firstDedup candidates).map (fun d => (d, scoreOf values d)))).2 : ℕ) : ℚ) then
        (selectBest none 0 ((firstDedup candidates).map (fun d => (d, scoreOf values d)))).1
      else none := rfl
  have hsc : (selectBest none 0
        ((firstDedup candidates).map (fun d => (d, scoreOf values d)))).2 =
      runningMax 0 ((firstDedup candidates).map (fun d => (d, scoreOf values d))) :=
    selectBest_score _ _ _
  refine ⟨?_, ?_, ?_⟩
  · intro hv
    subst hv
    have hzero : ∀ p ∈ (firstDedup candidates).map (fun d => (d, scoreOf ([] : List ℚ) d)),
        p.2 ≤ 0 := by
      intro p hp
      rcases List.mem_map.mp hp with ⟨d, _, rfl⟩
      simp [scoreOf]
    rw [hdb, selectBest_of_all_le hzero none]
    split <;> rfl
  · intro c h
    rw [hdb] at h
    by_cases hcond : ((values.length : ℚ) * (1 / 2) : ℚ) ≤
        (((selectBest none 0
          ((firstDedup candidates).map (fun d => (d, scoreOf values d)))).2 : ℕ) : ℚ)
    swap
    · rw [if_neg hcond] at h; cases h
    rw [if_pos hcond] at h
    rcases selectBest_scores_spec values (firstDedup candidates) c h with
      ⟨hcL, hscore, L₁, L₂, hLs, hL₁⟩
    refine ⟨mem_firstDedup.mp hcL, ?_, ?_, ⟨L₁, L₂, hLs, hL₁⟩⟩
    · rw [hsc, ← hscore] at hcond
      have h2 : (values.length : ℚ) ≤ 2 * (scoreOf values c : ℚ) := by linarith
      exact_mod_cast h2
    · intro d hd
      have hdL : d ∈ firstDedup candidates := mem_firstDedup.mpr hd
      have : (d, scoreOf values d) ∈
          (firstDedup candidates).map (fun d => (d, scoreOf values d)) :=
        List.mem_map_of_mem _ hdL
      have := mem_le_runningMax this 0
      rw [← hscore] at this
      exact this
  · intro hv h d hd
    have hlen : 0 < values.length := List.length_pos.mpr hv
    rw [hdb] at h
    by_cases hcond : ((values.length : ℚ) * (1 / 2) : ℚ) ≤
        (((selectBest none 0
          ((firstDedup candidates).map (fun d => (d, scoreOf values d)))).2 : ℕ) : ℚ)
    · rw [if_pos hcond] at h
      rcases hopt : (selectBest none 0
          ((firstDedup candidates).map (fun d => (d, scoreOf values d)))).1 with _ | c
      · rw [hopt] at h
        have hM0 : runningMax 0
            ((firstDedup candidates).map (fun d => (d, scoreOf values d))) = 0 := by
          by_contra hne
          have hpos : 0 < runningMax 0
              ((firstDedup candidates).map (fun d => (d, scoreOf values d))) :=
            Nat.pos_of_ne_zero hne
          rcases selectBest_first_argmax _ none 0 hpos with ⟨l₁, c', l₂, _, hfst, _⟩
          rw [hopt] at hfst
          cases hfst
        rw [hsc, hM0] at hcond
        have : (0 : ℚ) < (values.length : ℚ) * (1 / 2) := by
          have : (0 : ℚ) < (values.length : ℚ) := by exact_mod_cast hlen
          linarith
        simp only [Nat.cast_zero] at hcond
        linarith
      · rw [hopt] at h
        cases h
    · rw [hsc] at hcond
      push_neg at hcond
      have hdL : d ∈ firstDedup candidates := mem_firstDedup.mpr hd
      have hmem : (d, scoreOf values d) ∈
          (firstDedup candidates).map (fun d => (d, scoreOf values d)) :=
        List.mem_map_of_mem _ hdL
      have hdM := mem_le_runningMax hmem 0
      have hq : (scoreOf values d : ℚ) < (values.length : ℚ) * (1 / 2) :=
        lt_of_le_of_lt (by exact_mod_cast hdM) hcond
      have h2 : 2 * (scoreOf values d : ℚ) < (values.length : ℚ) := by linarith
      exact_mod_cast h2

/-- Invariant of the `detectModularScale` ratio loop: whenever the tracked best
ratio is present, the tracked best score is exactly that ratio's
matching-pair fraction and it is at least 0.5. -/
theorem modularFold_inv (sorted : List ℚ) (tolerance : ℚ) (ratios : List ℚ) :
    ∀ init : Option ℚ × ℚ,
      (∀ r, init.1 = some r →
        init.2 = (pairScore sorted r tolerance : ℚ) / ((sorted.length : ℚ) - 1) ∧
        (1 / 2 : ℚ) ≤ init.2) →
      ∀ r, (ratios.foldl (modularStep sorted tolerance) init).1 = some r →
        (ratios.foldl (modularStep sorted tolerance) init).2 =
          (pairScore sorted r tolerance : ℚ) / ((sorted.length : ℚ) - 1) ∧
        (1 / 2 : ℚ) ≤ (ratios.foldl (modularStep sorted tolerance) init).2 := by
  induction ratios with
  | nil => intro init hinit r h; exact hinit r h
  | cons ρ rest ih =>
    intro init hinit r h
    rw [List.foldl_cons] at h ⊢
    refine ih (modularStep sorted tolerance init ρ) ?_ r h
    intro r' hr'
    by_cases hc : init.2 < (pairScore sorted ρ tolerance : ℚ) / ((sorted.length : ℚ) - 1) ∧
        (1 / 2 : ℚ) ≤ (pairScore sorted ρ tolerance : ℚ) / ((sorted.length : ℚ) - 1)
    · simp only [modularStep, if_pos hc] at hr' ⊢
      injection hr' with hr'
      subst hr'
      exact ⟨rfl, hc.2⟩
    · simp only [modularStep, if_neg hc] at hr' ⊢
      exact hinit r' hr'

/-- A non-null `detectModularScale` result pins down the returned confidence:
it is the matching-pair fraction of the returned ratio, and at least 0.5. -/
theorem detectModularScale_some (values : List ℚ) (tolerance r c : ℚ)
    (h : detectModularScale values tolerance = some (r, c)) :
    3 ≤ values.length ∧
    c = (pairScore (sortBy (fun a b => decide (a ≤ b)) values) r tolerance : ℚ) /
      ((values.length : ℚ) - 1) ∧
    (1 / 2 : ℚ) ≤ c := by
  by_cases hlen : values.length < 3
  · rw [detectModularScale, if_pos hlen] at h
    cases h
  · have hdms : detectModularScale values tolerance =
        match (commonRatios.foldl
            (modularStep (sortBy (fun a b => decide (a ≤ b)) values) tolerance)
            ((none : Option ℚ), (0 : ℚ))).1 with
        | some r' => some (r', (commonRatios.foldl
            (modularStep (sortBy (fun a b => decide (a ≤ b)) values) tolerance)
            ((none : Option ℚ), (0 : ℚ))).2)
        | none => none := by
      rw [detectModularScale, if_neg hlen]
    rw [hdms] at h
    rcases hB : (commonRatios.foldl
        (modularStep (sortBy (fun a b => decide (a ≤ b)) values) tolerance)
        ((none : Option ℚ), (0 : ℚ))).1 with _ | r'
    · rw [hB] at h
      cases h
    · rw [hB] at h
      simp only [Option.some.injEq, Prod.mk.injEq] at h
      rcases h with ⟨hr, hc⟩
      have hinv := modularFold_inv (sortBy (fun a b => decide (a ≤ b)) values) tolerance
        commonRatios ((none : Option ℚ), (0 : ℚ)) (by intro r'' hr''; cases hr'') r' hB
      rw [length_sortBy] at hinv
      subst hr
      refine ⟨Nat.le_of_not_lt hlen, ?_, ?_⟩
      · rw [← hc]
        exact hinv.1
      · rw [← hc]
        exact hinv.2

/-! ### Color analyzer -/

/-- An sRGB triple as stored in `ColorInfo` (each channel a parsed integer). -/
structure RGB where
  r : ℕ
  g : ℕ
  b : ℕ
deriving DecidableEq

/-- Where a color was observed (`extractColor`'s `usage` argument). -/
inductive ColorUsage where
  | text
  | background
  | border
deriving DecidableEq

/-- One normalized color of the analyzer's color-frequency map. -/
structure ColorInfo where
  hex : List Char
  rgb : RGB
  count : ℕ
  usages : Finset ColorUsage
deriving DecidableEq

/-- A cluster of perceptually similar colors. -/
structure ColorCluster where
  centroid : ColorInfo
  colors : List ColorInfo
  totalCount : ℕ
deriving DecidableEq

/-- ASCII uppercase conversion of one character, as
`String.prototype.toUpperCase` acts on the ASCII range (the only characters
that reach it here are `#`, hex digits and letters of color names). -/
def charToUpper (c : Char) : Char :=
  if decide ('a' ≤ c) && decide (c ≤ 'z') then Char.ofNat (c.toNat - 32) else c

/-- ASCII lowercase conversion of one character (see `charToUpper`). -/
def charToLower (c : Char) : Char :=
  if decide ('A' ≤ c) && decide (c ≤ 'Z') then Char.ofNat (c.toNat + 32) else c

/-- `toUpperCase` over a JavaScript string. -/
def jsToUpper (s : List Char) : List Char := s.map charToUpper

/-- `toLowerCase` over a JavaScript string. -/
def jsToLower (s : List Char) : List Char := s.map charToLower

/-- Decimal digit test (`\d` of the reg-exps involved). -/
def isJsDigit (c : Char) : Bool :=
  decide ('0' ≤ c) && decide (c ≤ '9')

/-- Hexadecimal digit test, either case (the `[a-f\d]` class with the `i`
flag). -/
def isHexDigit (c : Char) : Bool :=
  isJsDigit c || (decide ('a' ≤ c) && decide (c ≤ 'f')) ||
    (decide ('A' ≤ c) && decide (c ≤ 'F'))

/-- Numeric value of a hexadecimal digit. -/
def hexDigitVal (c : Char) : ℕ :=
  if decide ('0' ≤ c) && decide (c ≤ '9') then c.toNat - '0'.toNat
  else if decide ('a' ≤ c) && decide (c ≤ 'f') then c.toNat - 'a'.toNat + 10
  else if decide ('A' ≤ c) && decide (c ≤ 'F') then c.toNat - 'A'.toNat + 10
  else 0

/-- `hexToRgb`: the reg-exp `^#?([a-f\d]{2})([a-f\d]{2})([a-f\d]{2})$/i` —
strip one optional leading `#`, then require exactly six hex digits and parse
them pairwise. -/
def hexToRgb (hex : List Char) : Option RGB :=
  let chars := if hex.head? = some '#' then hex.tail else hex
  match chars with
  | [c1, c2, c3, c4, c5, c6] =>
    if isHexDigit c1 && isHexDigit c2 && isHexDigit c3 && isHexDigit c4 &&
        isHexDigit c5 && isHexDigit c6 then
      some ⟨16 * hexDigitVal c1 + hexDigitVal c2, 16 * hexDigitVal c3 + hexDigitVal c4,
        16 * hexDigitVal c5 + hexDigitVal c6⟩
    else none
  | _ => none

/-- One lowercase hexadecimal digit character, as `Number.prototype.toString`
with radix 16 produces. -/
def hexDigitChar (n : ℕ) : Char :=
  if n < 10 then Char.ofNat ('0'.toNat + n) else Char.ofNat ('a'.toNat + n - 10)

/-- `n.toString(16)` for a natural number: lowercase hex digits, no leading
zeros (except for `0` itself). -/
def natToHexDigits (n : ℕ) : List Char :=
  if _h : n < 16 then [hexDigitChar n]
  else natToHexDigits (n / 16) ++ [hexDigitChar (n % 16)]
termination_by n
decreasing_by
  exact Nat.div_lt_self (by omega) (by omega)

/-- The `toHex` helper of `rgbToHex`: hex digits of the channel, left-padded
to two characters when a single digit. -/
def toHexPad2 (n : ℕ) : List Char :=
  let h := natToHexDigits n
  if h.length = 1 then '0' :: h else h

/-- `rgbToHex`: `'#' + toHex(r) + toHex(g) + toHex(b)` (`Math.round` is the
identity on the parsed integers that reach it). -/
def rgbToHex (r g b : ℕ) : List Char :=
  '#' :: (toHexPad2 r ++ toHexPad2 g ++ toHexPad2 b)

/-- The whitespace class `\s` of the rgb reg-exp, restricted to the ASCII
whitespace characters that can appear in computed CSS color strings. -/
def isJsWhitespace (c : Char) : Bool :=
  decide (c = ' ') || decide (c = Char.ofNat 9) || decide (c = Char.ofNat 10) ||
    decide (c = Char.ofNat 13) || decide (c = Char.ofNat 11) || decide (c = Char.ofNat 12)

/-- Greedy `\d+`: at least one decimal digit, returning its value and the rest
of the string. -/
def parseDigits (s : List Char) : Option (ℕ × List Char) :=
  match s.takeWhile isJsDigit with
  | [] => none
  | ds => some (ds.foldl (fun n c => 10 * n + (c.toNat - '0'.toNat)) 0, s.dropWhile isJsDigit)

/-- The reg-exp `rgba?\((\d+),\s*(\d+),\s*(\d+)` applied at the head of the
string: literal `rgb`, optional `a`, `(`, then three comma-separated integers
(whitespace allowed only after the commas). -/
def parseRgbTriple (s : List Char) : Option (ℕ × ℕ × ℕ) :=
  match s with
  | 'r' :: 'g' :: 'b' :: rest =>
    let rest1 :=
      match rest with
      | 'a' :: r => r
      | r => r
    match rest1 with
    | '(' :: r2 =>
      match parseDigits r2 with
      | some (rv, r3) =>
        match r3 with
        | ',' :: r4 =>
          match parseDigits (r4.dropWhile isJsWhitespace) with
          | some (gv, r5) =>
            match r5 with
            | ',' :: r6 =>
              match parseDigits (r6.dropWhile isJsWhitespace) with
              | some (bv, _) => some (rv, gv, bv)
              | none => none
            | _ => none
          | none => none
        | _ => none
      | none => none
    | _ => none
  | _ => none

/-- Unanchored reg-exp search: try `parseRgbTriple` at every suffix, leftmost
match first, like `String.prototype.match`. -/
def findRgbMatch : List Char → Option (ℕ × ℕ × ℕ)
  | [] => none
  | c :: rest =>
    match parseRgbTriple (c :: rest) with
    | some t => some t
    | none => findRgbMatch rest

/-- `expandShortHex`: `'#' + hex[1]+hex[1] + hex[2]+hex[2] + hex[3]+hex[3]`,
called only on 4-character strings (the fallback alternative is unreachable). -/
def expandShortHex (hex : List Char) : List Char :=
  match hex with
  | _ :: c1 :: c2 :: c3 :: _ => ['#', c1, c1, c2, c2, c3, c3]
  | _ => []

/-- The source's small named-color table, looked up on the lowercased input
(`namedColors[color.toLowerCase()] || null`). -/
def namedLookup (color : List Char) : Option (List Char) :=
  let c := jsToLower color
  if c = "white".data then some "#FFFFFF".data
  else if c = "black".data then some "#000000".data
  else if c = "red".data then some "#FF0000".data
  else if c = "green".data then some "#008000".data
  else if c = "blue".data then some "#0000FF".data
  else none

/-- `normalizeColor`: hex passthrough (uppercased, with 4-character shorthand
expanded case-preservingly), `rgb()/rgba()` parsing to lowercase hex, then the
named-color table; null when nothing applies. -/
def normalizeColor (color : List Char) : Option (List Char) :=
  if color.head? = some '#' then
    if color.length = 4 then some (expandShortHex color) else some (jsToUpper color)
  else if color.take 3 = ['r', 'g', 'b'] then
    match findRgbMatch color with
    | some (rv, gv, bv) => some (rgbToHex rv gv bv)
    | none => namedLookup color
  else namedLookup color

/-- `extractColor`: skip missing and fully transparent values, normalize, and
record the color in the frequency map (modelled as an insertion-ordered
association list keyed by the normalized hex), dropping colors whose
normalized form fails `hexToRgb`. -/
def extractColor (colorValue : Option (List Char)) (usage : ColorUsage)
    (freq : List ColorInfo) : List ColorInfo :=
  match colorValue with
  | none => freq
  | some cv =>
    if cv = "transparent".data ∨ cv = "rgba(0, 0, 0, 0)".data ∨ cv = "rgba(0,0,0,0)".data then
      freq
    else
      match normalizeColor cv with
      | none => freq
      | some normalized =>
        if freq.any (fun ci => decide (ci.hex = normalized)) then
          freq.map (fun ci =>
            if ci.hex = normalized then
              { ci with count := ci.count + 1, usages := insert usage ci.usages }
            else ci)
        else
          match hexToRgb normalized with
          | none => freq
          | some rgbv =>
            freq ++ [{ hex := normalized, rgb := rgbv, count := 1, usages := {usage} }]

/-- The extraction pass of `ColorAnalyzer.analyze`, folded over the observed
(color value, usage) pairs of all elements. -/
def runExtraction (inputs : List (Option (List Char) × ColorUsage)) : List ColorInfo :=
  inputs.foldl (fun freq p => extractColor p.1 p.2 freq) []

/-- The nearest-cluster scan of `clusterColors`: walk the cluster list with its
index, keeping the index and distance of the closest cluster seen so far among
those with distance below the ΔE threshold 10 (strict improvement, so the
first cluster wins ties, and `minDistance` starts at `Infinity`, i.e. any
distance below 10 beats an absent best). -/
def findNearestAux (dist : RGB → RGB → ℚ) (c : ColorInfo) :
    List ColorCluster → ℕ → Option (ℕ × ℚ) → Option (ℕ × ℚ)
  | [], _, best => best
  | cl :: rest, i, best =>
    let d := dist c.rgb cl.centroid.rgb
    let better : Bool :=
      decide (d < 10) &&
        (match best with
          | none => true
          | some bd => decide (d < bd.2))
    findNearestAux dist c rest (i + 1) (if better then some (i, d) else best)

/-- Index of the nearest cluster within the ΔE threshold, if any. -/
def findNearest (dist : RGB → RGB → ℚ) (c : ColorInfo) (clusters : List ColorCluster) :
    Option ℕ :=
  (findNearestAux dist c clusters 0 none).map Prod.fst

/-- Merging a color into an existing cluster: push it onto the member list,
add its count to `totalCount`, and merge its usages into the centroid's usage
set.  (In the source the centroid aliases the first member; the usage merge is
modelled functionally here, which only affects the `usages` field.) -/
def addColorToCluster (cl : ColorCluster) (c : ColorInfo) : ColorCluster :=
  ⟨{ cl.centroid with usages := cl.centroid.usages ∪ c.usages },
    cl.colors ++ [c], cl.totalCount + c.count⟩

/-- In-place update of the list element at an index (the mutation of
`nearestCluster` inside the cluster array). -/
def modifyAt {α : Type} (f : α → α) : ℕ → List α → List α
  | _, [] => []
  | 0, a :: rest => f a :: rest
  | n + 1, a :: rest => a :: modifyAt f n rest

/-- One iteration of the clustering loop: merge the color into the nearest
cluster within threshold, or append a fresh cluster seeded by the color. -/
def clusterStep (dist : RGB → RGB → ℚ) (clusters : List ColorCluster) (c : ColorInfo) :
    List ColorCluster :=
  match findNearest dist c clusters with
  | some i => modifyAt (fun cl => addColorToCluster cl c) i clusters
  | none => clusters ++ [⟨c, [c], c.count⟩]

/-- `clusterColors`: sort the surviving colors by descending count (stable),
greedily assign each to the nearest existing cluster (ΔE < 10) or seed a new
one, then sort clusters by descending total count.  The perceptual distance is
a parameter: the source computes CIE76 ΔE with `Math.pow`, which is
floating-point; every claim proved below holds for any distance function. -/
def clusterColors (dist : RGB → RGB → ℚ) (colorFrequency : List ColorInfo) :
    List ColorCluster :=
  let colors := sortBy (fun a b => decide (b.count ≤ a.count)) colorFrequency
  let clusters := colors.foldl (clusterStep dist) []
  sortBy (fun a b => decide (b.totalCount ≤ a.totalCount)) clusters

theorem findNearestAux_lt (dist : RGB → RGB → ℚ) (c : ColorInfo) :
    ∀ (l : List ColorCluster) (n : ℕ) (best : Option (ℕ × ℚ)),
      (∀ j d, best = some (j, d) → j < n) →
      ∀ j d, findNearestAux dist c l n best = some (j, d) → j < n + l.length := by
  intro l
  induction l with
  | nil =>
    intro n best hb j d h
    exact Nat.lt_of_lt_of_le (hb j d h) (Nat.le_add_right n _)
  | cons cl rest ih =>
    intro n best hb j d h
    simp only [findNearestAux] at h
    have hnext : ∀ j d,
        (if (decide (dist c.rgb cl.centroid.rgb < 10) &&
            (match best with
              | none => true
              | some bd => decide (dist c.rgb cl.centroid.rgb < bd.2))) = true then
          some (n, dist c.rgb cl.centroid.rgb) else best) = some (j, d) → j < n + 1 := by
      intro j d hj
      split at hj
      · injection hj with hj'
        injection hj' with h1 h2
        omega
      · exact Nat.lt_succ_of_lt (hb j d hj)
    have := ih (n + 1) _ hnext j d h
    simpa [Nat.add_assoc, Nat.add_comm 1 rest.length] using this

theorem findNearest_lt {dist : RGB → RGB → ℚ} {c : ColorInfo} {clusters : List ColorCluster}
    {i : ℕ} (h : findNearest dist c clusters = some i) : i < clusters.length := by
  rcases hopt : findNearestAux dist c clusters 0 none with _ | p
  · rw [findNearest, hopt] at h
    cases h
  · rw [findNearest, hopt] at h
    injection h with h1
    rcases p with ⟨j, d⟩
    have := findNearestAux_lt dist c clusters 0 none (by intro j d hj; cases hj) j d hopt
    simpa [← h1] using this

theorem perm_append_swap_singleton {α : Type} (c : α) (A B : List α) :
    ((A ++ [c]) ++ B).Perm ((A ++ B) ++ [c]) := by
  rw [List.append_assoc A [c] B, List.append_assoc A B [c]]
  exact List.Perm.append_left A List.perm_append_comm

theorem flatMap_modifyAt_addColor (c : ColorInfo) :
    ∀ (i : ℕ) (l : List ColorCluster), i < l.length →
      ((modifyAt (fun cl => addColorToCluster cl c) i l).flatMap (fun cl => cl.colors)).Perm
        ((l.flatMap (fun cl => cl.colors)) ++ [c]) := by
  intro i
  induction i with
  | zero =>
    intro l hl
    cases l with
    | nil => cases hl
    | cons cl rest =>
      simp only [modifyAt, List.flatMap_cons, addColorToCluster]
      exact perm_append_swap_singleton c cl.colors (rest.flatMap (fun cl => cl.colors))
  | succ n ih =>
    intro l hl
    cases l with
    | nil => cases hl
    | cons cl rest =>
      simp only [modifyAt, List.flatMap_cons]
      have hrest : n < rest.length := by
        simp only [List.length_cons] at hl
        omega
      have hperm := List.Perm.append_left cl.colors (ih rest hrest)
      rw [← List.append_assoc] at hperm
      exact hperm

theorem mem_modifyAt {α : Type} {f : α → α} :
    ∀ {i : ℕ} {l : List α} {a : α}, a ∈ modifyAt f i l → a ∈ l ∨ ∃ b ∈ l, a = f b := by
  intro i
  induction i with
  | zero =>
    intro l a h
    cases l with
    | nil => cases h
    | cons x rest =>
      simp only [modifyAt, List.mem_cons] at h
      rcases h with h | h
      · exact Or.inr ⟨x, List.mem_cons_self x rest, h⟩
      · exact Or.inl (List.mem_cons_of_mem x h)
  | succ n ih =>
    intro l a h
    cases l with
    | nil => cases h
    | cons x rest =>
      simp only [modifyAt, List.mem_cons] at h
      rcases h with h | h
      · exact Or.inl (h ▸ List.mem_cons_self x rest)
      · rcases ih h with h' | ⟨b, hb, hab⟩
        · exact Or.inl (List.mem_cons_of_mem x h')
        · exact Or.inr ⟨b, List.mem_cons_of_mem x hb, hab⟩

/-- Invariant: every cluster's `totalCount` is the sum of its members'
counts. -/
def clusterInvariant (clusters : List ColorCluster) : Prop :=
  ∀ cl ∈ clusters, cl.totalCount = (cl.colors.map (fun x => x.count)).sum

theorem clusterStep_perm (dist : RGB → RGB → ℚ) (clusters : List ColorCluster)
    (c : ColorInfo) :
    ((clusterStep dist clusters c).flatMap (fun cl => cl.colors)).Perm
      ((clusters.flatMap (fun cl => cl.colors)) ++ [c]) := by
  rcases hfn : findNearest dist c clusters with _ | i
  · simp only [clusterStep, hfn]
    simp [List.flatMap_append]
  · simp only [clusterStep, hfn]
    exact flatMap_modifyAt_addColor c i clusters (findNearest_lt hfn)

theorem clusterStep_inv (dist : RGB → RGB → ℚ) (clusters : List ColorCluster)
    (c : ColorInfo) (h : clusterInvariant clusters) :
    clusterInvariant (clusterStep dist clusters c) := by
  rcases hfn : findNearest dist c clusters with _ | i
  · simp only [clusterStep, hfn]
    intro cl hcl
    rcases List.mem_append.mp hcl with hcl | hcl
    · exact h cl hcl
    · simp only [List.mem_singleton] at hcl
      subst hcl
      simp
  · simp only [clusterStep, hfn]
    intro cl hcl
    rcases mem_modifyAt hcl with hcl | ⟨b, hb, rfl⟩
    · exact h cl hcl
    · simp only [addColorToCluster, List.map_append, List.sum_append, List.map_cons,
        List.map_nil, List.sum_cons, List.sum_nil]
      rw [h b hb]
      omega

theorem clusterFold_perm (dist : RGB → RGB → ℚ) :
    ∀ (colors : List ColorInfo) (clusters : List ColorCluster),
      ((colors.foldl (clusterStep dist) clusters).flatMap (fun cl => cl.colors)).Perm
        ((clusters.flatMap (fun cl => cl.colors)) ++ colors) := by
  intro colors
  induction colors with
  | nil => intro clusters; simp
  | cons c rest ih =>
    intro clusters
    rw [List.foldl_cons]
    refine (ih _).trans ?_
    refine ((clusterStep_perm dist clusters c).append_right rest).trans ?_
    rw [List.append_assoc, List.singleton_append]

theorem clusterFold_inv (dist : RGB → RGB → ℚ) :
    ∀ (colors : List ColorInfo) (clusters : List ColorCluster),
      clusterInvariant clusters →
      clusterInvariant (colors.foldl (clusterStep dist) clusters) := by
  intro colors
  induction colors with
  | nil => intro clusters h; exact h
  | cons c rest ih =>
    intro clusters h
    rw [List.foldl_cons]
    exact ih _ (clusterStep_inv dist clusters c h)

theorem sum_totalCount_of_inv :
    ∀ {clusters : List ColorCluster}, clusterInvariant clusters →
      (clusters.map (fun cl => cl.totalCount)).sum =
        ((clusters.flatMap (fun cl => cl.colors)).map (fun x => x.count)).sum := by
  intro clusters
  induction clusters with
  | nil => intro _; rfl
  | cons cl rest ih =>
    intro h
    simp only [List.map_cons, List.sum_cons, List.flatMap_cons, List.map_append,
      List.sum_append]
    rw [h cl (List.mem_cons_self cl rest),
      ih (fun x hx => h x (List.mem_cons_of_mem cl hx))]

/-- An HSL triple (`h` in degrees, `s` and `l` as fractions). -/
structure HSL where
  h : ℚ
  s : ℚ
  l : ℚ

/-- `rgbToHsl`, translated literally: channels scaled to `[0,1]`, lightness
from max and min, and the usual piecewise hue/saturation formulas.  The
`switch (max)` statement matches the first channel equal to the maximum, in
the order r, g, b.  All operations are exact field arithmetic on rationals. -/
def rgbToHsl (rgb : RGB) : HSL :=
  let r : ℚ := (rgb.r : ℚ) / 255
  let g : ℚ := (rgb.g : ℚ) / 255
  let b : ℚ := (rgb.b : ℚ) / 255
  let maxv := max r (max g b)
  let minv := min r (min g b)
  let l := (maxv + minv) / 2
  if maxv = minv then ⟨0, 0, l⟩
  else
    let d := maxv - minv
    let s := if (1 / 2 : ℚ) < l then d / (2 - maxv - minv) else d / (maxv + minv)
    let h :=
      if maxv = r then ((g - b) / d + (if g < b then (6 : ℚ) else 0)) / 6
      else if maxv = g then ((b - r) / d + 2) / 6
      else ((r - g) / d + 4) / 6
    ⟨h * 360, s, l⟩

/-- Red hue band: `[0,30) ∪ [330,360]`. -/
def isRedHue (h : ℚ) : Bool :=
  (decide (0 ≤ h) && decide (h < 30)) || (decide (330 ≤ h) && decide (h ≤ 360))

/-- Green hue band: `[90,150)`. -/
def isGreenHue (h : ℚ) : Bool :=
  decide (90 ≤ h) && decide (h < 150)

/-- Yellow hue band: `[30,90)`. -/
def isYellowHue (h : ℚ) : Bool :=
  decide (30 ≤ h) && decide (h < 90)

/-- Blue hue band: `[180,270)`. -/
def isBlueHue (h : ℚ) : Bool :=
  decide (180 ≤ h) && decide (h < 270)

/-- The four optional semantic slots of a palette. -/
structure SemanticColors where
  error : Option ColorCluster
  success : Option ColorCluster
  warning : Option ColorCluster
  info : Option ColorCluster

/-- The palette assembled by `identifyColorRoles`.  The source's
`cssVariables` field is omitted: it is filled by a separate DOM scan
(`extractCSSVariables`) outside the claims considered here. -/
structure ColorPalette where
  primary : Option ColorCluster
  secondary : Option ColorCluster
  accent : List ColorCluster
  neutrals : List ColorCluster
  semantic : SemanticColors
  all : List ColorCluster

/-- One iteration of the role-assignment loop, mirroring the source's
`continue`-separated branches: neutral by low saturation; else the first free
matching semantic slot; else primary, secondary, accent by saturation and
count thresholds; else no role. -/
def roleStep (p : ColorPalette) (cluster : ColorCluster) : ColorPalette :=
  let hsl := rgbToHsl cluster.centroid.rgb
  if hsl.s < 15 / 100 then { p with neutrals := p.neutrals ++ [cluster] }
  else if isRedHue hsl.h = true ∧ p.semantic.error = none then
    { p with semantic := { p.semantic with error := some cluster } }
  else if isGreenHue hsl.h = true ∧ p.semantic.success = none then
    { p with semantic := { p.semantic with success := some cluster } }
  else if isYellowHue hsl.h = true ∧ p.semantic.warning = none then
    { p with semantic := { p.semantic with warning := some cluster } }
  else if isBlueHue hsl.h = true ∧ p.semantic.info = none then
    { p with semantic := { p.semantic with info := some cluster } }
  else if p.primary = none ∧ 3 / 10 < hsl.s ∧ 10 < cluster.totalCount then
    { p with primary := some cluster }
  else if p.secondary = none ∧ 3 / 10 < hsl.s ∧ 5 < cluster.totalCount then
    { p with secondary := some cluster }
  else if 5 / 10 < hsl.s then { p with accent := p.accent ++ [cluster] }
  else p

/-- `identifyColorRoles`: start from the empty palette whose `all` field holds
every cluster, then assign roles cluster by cluster in order. -/
def identifyColorRoles (clusters : List ColorCluster) : ColorPalette :=
  clusters.foldl roleStep
    ⟨none, none, [], [], ⟨none, none, none, none⟩, clusters⟩

/-- The member list of an optional slot. -/
def optList {α : Type} : Option α → List α
  | none => []
  | some a => [a]

/-- All clusters holding some role in a palette (each slot contributing its
occupants), as a multiset. -/
def roleOccupants (p : ColorPalette) : Multiset ColorCluster :=
  (optList p.primary : Multiset ColorCluster) + (optList p.secondary : Multiset ColorCluster) +
    (p.accent : Multiset ColorCluster) + (p.neutrals : Multiset ColorCluster) +
    (optList p.semantic.error : Multiset ColorCluster) +
    (optList p.semantic.success : Multiset ColorCluster) +
    (optList p.semantic.warning : Multiset ColorCluster) +
    (optList p.semantic.info : Multiset ColorCluster)

theorem roleStep_all (p : ColorPalette) (c : ColorCluster) : (roleStep p c).all = p.all := by
  unfold roleStep
  dsimp only
  split_ifs <;> rfl

theorem roleStep_occupants (p : ColorPalette) (c : ColorCluster) :
    roleOccupants (roleStep p c) ≤ roleOccupants p + {c} := by
  unfold roleStep
  dsimp only
  split_ifs with h1 h2 h3 h4 h5 h6 h7 h8
  · refine le_of_eq ?_
    simp only [roleOccupants, ← Multiset.coe_add, Multiset.coe_singleton]
    abel
  · rcases h2 with ⟨_, he⟩
    refine le_of_eq ?_
    simp only [roleOccupants, he, optList]
    push_cast
    abel
  · rcases h3 with ⟨_, he⟩
    refine le_of_eq ?_
    simp only [roleOccupants, he, optList]
    push_cast
    abel
  · rcases h4 with ⟨_, he⟩
    refine le_of_eq ?_
    simp only [roleOccupants, he, optList]
    push_cast
    abel
  · rcases h5 with ⟨_, he⟩
    refine le_of_eq ?_
    simp only [roleOccupants, he, optList]
    push_cast
    abel
  · rcases h6 with ⟨he, _⟩
    refine le_of_eq ?_
    simp only [roleOccupants, he, optList]
    push_cast
    abel
  · rcases h7 with ⟨he, _⟩
    refine le_of_eq ?_
    simp only [roleOccupants, he, optList]
    push_cast
    abel
  · refine le_of_eq ?_
    simp only [roleOccupants, ← Multiset.coe_add, Multiset.coe_singleton]
    abel
  · exact Multiset.le_add_right _ _

theorem roleFold_all : ∀ (clusters : List ColorCluster) (p : ColorPalette),
    (clusters.foldl roleStep p).all = p.all := by
  intro clusters
  induction clusters with
  | nil => intro p; rfl
  | cons c rest ih =>
    intro p
    rw [List.foldl_cons, ih, roleStep_all]

theorem roleFold_occupants : ∀ (clusters : List ColorCluster) (p : ColorPalette),
    roleOccupants (clusters.foldl roleStep p) ≤ roleOccupants p + (clusters : Multiset ColorCluster) := by
  intro clusters
  induction clusters with
  | nil => intro p; simp
  | cons c rest ih =>
    intro p
    rw [List.foldl_cons]
    refine (ih (roleStep p c)).trans ?_
    refine (add_le_add_right (roleStep_occupants p c) (rest : Multiset ColorCluster)).trans ?_
    refine le_of_eq ?_
    rw [add_assoc]
    congr 1

/-! ### Spacing analyzer -/

/-- Where a spacing value was observed. -/
inductive SpacingUsage where
  | margin
  | padding
  | gap
deriving DecidableEq

/-- One entry of the spacing frequency map. -/
structure SpacingInfo where
  value : ℚ
  count : ℕ
  usages : Finset SpacingUsage
deriving DecidableEq

/-- The T-shirt rung names of `createSpacingScale`, in order. -/
def scaleNames : List String :=
  ["xs", "sm", "md", "lg", "xl", "2xl", "3xl", "4xl", "5xl"]

/-- `createSpacingScale`: keep the map entries whose value is an exact multiple
of the base unit, sort them by descending count, take the values, deduplicate
(`new Set`, first occurrence) and sort ascending, then name the first nine with
the scale rungs.  The source renders each value as the string `"${v}px"`;
the numeric pixel value is kept here. -/
def createSpacingScale (spacingValues : List (ℚ × SpacingInfo)) (baseUnit : ℚ) :
    List (String × ℚ) :=
  let values := ((sortBy (fun a b => decide (b.2.count ≤ a.2.count))
    (spacingValues.filter (fun p => jsDivisible p.1 baseUnit))).map (fun p => p.1))
  let uniqueValues := sortBy (fun a b => decide (a ≤ b)) (firstDedup values)
  scaleNames.zip uniqueValues

/-- The spacing analyzer's output. -/
structure SpacingSystem where
  baseUnit : ℚ
  scale : List (String × ℚ)
  allValues : List (ℚ × SpacingInfo)

/-- The reduction step of `SpacingAnalyzer.analyze` after value extraction:
detect the base unit over the positive observed values with candidates
4, 8, 10, 16, fall back to 8 when the detector returns a falsy value
(`|| 8` — null or 0), build the named scale, and sort all entries by
descending count. -/
def spacingAnalyze (spacingValues : List (ℚ × SpacingInfo)) : SpacingSystem :=
  let values := (spacingValues.map (fun p => p.1)).filter (fun v => decide (0 < v))
  let baseUnit :=
    match detectBaseUnit values [4, 8, 10, 16] with
    | none => 8
    | some c => if c = 0 then 8 else c
  let scale := createSpacingScale spacingValues baseUnit
  let sortedValues := sortBy (fun a b => decide (b.2.count ≤ a.2.count)) spacingValues
  ⟨baseUnit, scale, sortedValues⟩

/-! ### Typography analyzer -/

/-- A font family with its observation count. -/
structure FontFamily where
  name : List Char
  count : ℕ
deriving DecidableEq

/-- `getMostFrequent`: scan the family-frequency map keeping the entry with the
strictly highest count, starting from `name = 'sans-serif'`, `count = 0` — so
an empty map yields that default. -/
def getMostFrequent (families : List (List Char × ℕ)) : FontFamily :=
  families.foldl (fun (acc : FontFamily) p => if acc.count < p.2 then ⟨p.1, p.2⟩ else acc)
    ⟨"sans-serif".data, 0⟩

/-- `getSecondMostFrequent`: sort entries by descending count and return the
second one, or undefined when there are fewer than two entries. -/
def getSecondMostFrequent (families : List (List Char × ℕ)) : Option FontFamily :=
  match sortBy (fun a b => decide (b.2 ≤ a.2)) families with
  | _ :: (n, c) :: _ => some ⟨n, c⟩
  | _ => none

/-- `normalizeFontFamily`: take the first comma-separated font, trim
whitespace, drop single and double quotes. -/
def normalizeFontFamily (family : List Char) : List Char :=
  ((((family.takeWhile (fun c => decide (c ≠ ','))).dropWhile
      isJsWhitespace).reverse.dropWhile isJsWhitespace).reverse).filter
    (fun c => decide (c ≠ Char.ofNat 39) && decide (c ≠ Char.ofNat 34))

/-- The font-family tally of `TypographyAnalyzer.analyze`: for each element's
`fontFamily` (when present), normalize it and bump its entry in the
insertion-ordered frequency map. -/
def buildFontFamilies (observations : List (Option (List Char))) : List (List Char × ℕ) :=
  observations.foldl
    (fun fams obs =>
      match obs with
      | none => fams
      | some s =>
        let fam := normalizeFontFamily s
        if fams.any (fun p => decide (p.1 = fam)) then
          fams.map (fun p => if p.1 = fam then (p.1, p.2 + 1) else p)
        else fams ++ [(fam, 1)])
    []

/-- The primary/secondary-font part of `TypographyAnalyzer.analyze`. -/
def typographyFonts (observations : List (Option (List Char))) :
    FontFamily × Option FontFamily :=
  let fams := buildFontFamilies observations
  (getMostFrequent fams, getSecondMostFrequent fams)

/-! ### Shape of recorded hex strings (for the canonical-hex claim) -/

theorem namedLookup_head {cv s : List Char} (h : namedLookup cv = some s) :
    s.head? = some '#' := by
  unfold namedLookup at h
  dsimp only at h
  split_ifs at h <;> injection h with h <;> rw [← h] <;> decide

theorem normalizeColor_head {cv s : List Char} (h : normalizeColor cv = some s) :
    s.head? = some '#' := by
  unfold normalizeColor at h
  by_cases h1 : cv.head? = some '#'
  · rw [if_pos h1] at h
    by_cases h4 : cv.length = 4
    · rw [if_pos h4] at h
      injection h with h
      rw [← h]
      rcases cv with _ | ⟨a, cv1⟩
      · simp at h1
      rcases cv1 with _ | ⟨b, cv2⟩
      · simp at h4
      rcases cv2 with _ | ⟨c, cv3⟩
      · simp at h4
      rcases cv3 with _ | ⟨d, cv4⟩
      · simp at h4
      rfl
    · rw [if_neg h4] at h
      injection h with h
      rw [← h]
      rcases cv with _ | ⟨a, t⟩
      · simp at h1
      · simp only [List.head?_cons, Option.some.injEq] at h1
        subst h1
        simp only [jsToUpper, List.map_cons, List.head?_cons, Option.some.injEq]
        decide
  · rw [if_neg h1] at h
    by_cases h2 : cv.take 3 = ['r', 'g', 'b']
    · rw [if_pos h2] at h
      rcases hm : findRgbMatch cv with _ | ⟨rv, gv, bv⟩
      · rw [hm] at h
        exact namedLookup_head h
      · rw [hm] at h
        injection h with h
        rw [← h]
        rfl
    · rw [if_neg h2] at h
      exact namedLookup_head h

theorem hexToRgb_shape {s : List Char} {rgbv : RGB} (hhead : s.head? = some '#')
    (h : hexToRgb s = some rgbv) :
    s.length = 7 ∧ s.tail.all isHexDigit = true := by
  unfold hexToRgb at h
  dsimp only at h
  rw [if_pos hhead] at h
  rcases s with _ | ⟨a, t⟩
  · simp at hhead
  simp only [List.tail_cons] at h ⊢
  rcases t with _ | ⟨c1, t1⟩
  · exact Option.noConfusion h
  rcases t1 with _ | ⟨c2, t2⟩
  · exact Option.noConfusion h
  rcases t2 with _ | ⟨c3, t3⟩
  · exact Option.noConfusion h
  rcases t3 with _ | ⟨c4, t4⟩
  · exact Option.noConfusion h
  rcases t4 with _ | ⟨c5, t5⟩
  · exact Option.noConfusion h
  rcases t5 with _ | ⟨c6, t6⟩
  · exact Option.noConfusion h
  rcases t6 with _ | ⟨c7, t7⟩
  · dsimp only at h
    by_cases hall : (isHexDigit c1 && isHexDigit c2 && isHexDigit c3 && isHexDigit c4 &&
        isHexDigit c5 && isHexDigit c6) = true
    · refine ⟨rfl, ?_⟩
      simp only [List.all_cons, List.all_nil, Bool.and_true, Bool.and_eq_true] at hall ⊢
      tauto
    · rw [if_neg hall] at h
      exact Option.noConfusion h
  · exact Option.noConfusion h

theorem extractColor_hex_shape {cv : Option (List Char)} {usage : ColorUsage}
    {freq : List ColorInfo}
    (h : ∀ ci ∈ freq, ci.hex.length = 7 ∧ ci.hex.head? = some '#' ∧
      ci.hex.tail.all isHexDigit = true) :
    ∀ ci ∈ extractColor cv usage freq, ci.hex.length = 7 ∧ ci.hex.head? = some '#' ∧
      ci.hex.tail.all isHexDigit = true := by
  intro ci hci
  rcases cv with _ | v
  · exact h ci hci
  · simp only [extractColor] at hci
    by_cases htr : v = "transparent".data ∨ v = "rgba(0, 0, 0, 0)".data ∨
        v = "rgba(0,0,0,0)".data
    · rw [if_pos htr] at hci
      exact h ci hci
    · rw [if_neg htr] at hci
      rcases hn : normalizeColor v with _ | normalized
      · rw [hn] at hci
        exact h ci hci
      · rw [hn] at hci
        dsimp only at hci
        by_cases hany : (freq.any fun ci => decide (ci.hex = normalized)) = true
        · rw [if_pos hany] at hci
          rcases List.mem_map.mp hci with ⟨b, hb, rfl⟩
          by_cases hbh : b.hex = normalized
          · simp only [if_pos hbh]
            exact h b hb
          · simp only [if_neg hbh]
            exact h b hb
        · rw [if_neg hany] at hci
          rcases hr : hexToRgb normalized with _ | rgbv
          · rw [hr] at hci
            exact h ci hci
          · rw [hr] at hci
            dsimp only at hci
            rcases List.mem_append.mp hci with hold | hnew
            · exact h ci hold
            · simp only [List.mem_singleton] at hnew
              subst hnew
              have hhd := normalizeColor_head hn
              have hsh := hexToRgb_shape hhd hr
              exact ⟨hsh.1, hhd, hsh.2⟩

/-! ### Claims -/

/-- C1: Clustering partition — for every input color-frequency map (and any
perceptual distance function), the concatenation of the member lists of the
clusters returned by `clusterColors` is a permutation of the surviving colors
(so every surviving `ColorInfo` appears in exactly one cluster, with
multiplicity), and the cluster `totalCount`s sum to the sum of the surviving
colors' counts. -/
theorem claim_c1_clustering_partition (dist : RGB → RGB → ℚ)
    (colorFrequency : List ColorInfo) :
    ((clusterColors dist colorFrequency).flatMap (fun cl => cl.colors)).Perm colorFrequency ∧
    ((clusterColors dist colorFrequency).map (fun cl => cl.totalCount)).sum =
      (colorFrequency.map (fun ci => ci.count)).sum := by
  have h1 : (((sortBy (fun a b => decide (b.count ≤ a.count)) colorFrequency).foldl
      (clusterStep dist) []).flatMap (fun cl => cl.colors)).Perm
      (sortBy (fun a b => decide (b.count ≤ a.count)) colorFrequency) := by
    have := clusterFold_perm dist
      (sortBy (fun a b => decide (b.count ≤ a.count)) colorFrequency) []
    simpa using this
  have hperm : ((sortBy (fun a b => decide (b.totalCount ≤ a.totalCount))
      ((sortBy (fun a b => decide (b.count ≤ a.count)) colorFrequency).foldl
        (clusterStep dist) [])).flatMap (fun cl => cl.colors)).Perm colorFrequency :=
    ((perm_sortBy _ _).flatMap_right _).trans
      (h1.trans (perm_sortBy (fun a b => decide (b.count ≤ a.count)) colorFrequency))
  constructor
  · exact hperm
  · have hinv : clusterInvariant
        ((sortBy (fun a b => decide (b.count ≤ a.count)) colorFrequency).foldl
          (clusterStep dist) []) :=
      clusterFold_inv dist _ [] (by intro cl hcl; cases hcl)
    have hinv2 : clusterInvariant (sortBy (fun a b => decide (b.totalCount ≤ a.totalCount))
        ((sortBy (fun a b => decide (b.count ≤ a.count)) colorFrequency).foldl
          (clusterStep dist) [])) := by
      intro cl hcl
      exact hinv cl (mem_sortBy.mp hcl)
    exact (sum_totalCount_of_inv hinv2).trans ((hperm.map (fun x => x.count)).sum_eq)

/-- C2: Base-unit divisibility — every pixel value that
`SpacingAnalyzer.analyze` places in the named spacing scale is an integer
multiple of the returned base unit. -/
theorem claim_c2_scale_divisible (spacingValues : List (ℚ × SpacingInfo)) :
    ∀ nm v, (nm, v) ∈ (spacingAnalyze spacingValues).scale →
      ∃ k : ℤ, v = (k : ℚ) * (spacingAnalyze spacingValues).baseUnit := by
  intro nm v hmem
  have hscale : (spacingAnalyze spacingValues).scale =
      createSpacingScale spacingValues ((spacingAnalyze spacingValues).baseUnit) := rfl
  rw [hscale] at hmem
  have hv := (List.of_mem_zip hmem).2
  rw [mem_sortBy, mem_firstDedup] at hv
  rcases List.mem_map.mp hv with ⟨p, hp, rfl⟩
  rw [mem_sortBy] at hp
  have hdiv := (List.mem_filter.mp hp).2
  rcases jsDivisible_iff.mp hdiv with ⟨_, k, hk⟩
  exact ⟨k, hk⟩

/-- C2 witness: on a concrete sample the rung `xs` holds the value 4, an
integer multiple of the detected base unit. -/
theorem claim_c2_scale_divisible_witness :
    ∃ k : ℤ, (4 : ℚ) = (k : ℚ) *
      (spacingAnalyze [(4, ⟨4, 3, ∅⟩), (8, ⟨8, 5, ∅⟩), (6, ⟨6, 2, ∅⟩)]).baseUnit :=
  claim_c2_scale_divisible [(4, ⟨4, 3, ∅⟩), (8, ⟨8, 5, ∅⟩), (6, ⟨6, 2, ∅⟩)] "xs" 4 (by decide)

/-- C3 counterexample: on the empty value list the unique (hence
highest-scoring) candidate's score, 0, is at least 50% of the input length
(0 ≥ 0), so the claim as stated demands that candidate — but `detectBaseUnit`
returns null. -/
theorem claim_c3_counterexample :
    detectBaseUnit ([] : List ℚ) [4] = none ∧
    detectBaseUnit ([] : List ℚ) [4] ≠ some 4 ∧
    ([] : List ℚ).length ≤ 2 * scoreOf ([] : List ℚ) 4 ∧
    (∀ d ∈ [(4 : ℚ)], scoreOf ([] : List ℚ) d ≤ scoreOf ([] : List ℚ) 4) := by
  refine ⟨by decide, by decide, by decide, ?_⟩
  intro d hd
  simp only [List.mem_singleton] at hd
  subst hd
  exact Nat.le_refl _

/-- C3 (amended): `detectBaseUnit` returns null on an empty value list;
otherwise it returns a candidate exactly when some candidate's count of
exactly-divisible values reaches 50% of the input length, namely the first
candidate (in first-occurrence order of the caller-supplied list) attaining
the maximal count; on a non-empty input it returns null exactly when every
candidate's count is below 50%. -/
theorem claim_c3_detectBaseUnit_contract (values candidates : List ℚ) :
    (values = [] → detectBaseUnit values candidates = none)
    ∧ (∀ c, detectBaseUnit values candidates = some c →
        c ∈ candidates ∧
        values.length ≤ 2 * scoreOf values c ∧
        (∀ d ∈ candidates, scoreOf values d ≤ scoreOf values c) ∧
        ∃ l₁ l₂, firstDedup candidates = l₁ ++ c :: l₂ ∧
          ∀ d ∈ l₁, scoreOf values d < scoreOf values c)
    ∧ (values ≠ [] → detectBaseUnit values candidates = none →
        ∀ d ∈ candidates, 2 * scoreOf values d < values.length) :=
  detectBaseUnit_characterization values candidates

/-- C3 witness: on the spec's spacing scenario the returned candidate 4 is a
listed candidate, covers at least half of the values, and maximizes the
score. -/
theorem claim_c3_detectBaseUnit_contract_witness :
    (4 : ℚ) ∈ [(4 : ℚ), 8, 10, 16] ∧
    ([(4 : ℚ), 8, 8, 12, 16, 16, 24, 32] : List ℚ).length ≤
      2 * scoreOf [(4 : ℚ), 8, 8, 12, 16, 16, 24, 32] 4 ∧
    (∀ d ∈ [(4 : ℚ), 8, 10, 16],
      scoreOf [(4 : ℚ), 8, 8, 12, 16, 16, 24, 32] d ≤
        scoreOf [(4 : ℚ), 8, 8, 12, 16, 16, 24, 32] 4) ∧
    ∃ l₁ l₂, firstDedup [(4 : ℚ), 8, 10, 16] = l₁ ++ 4 :: l₂ ∧
      ∀ d ∈ l₁, scoreOf [(4 : ℚ), 8, 8, 12, 16, 16, 24, 32] d <
        scoreOf [(4 : ℚ), 8, 8, 12, 16, 16, 24, 32] 4 :=
  (claim_c3_detectBaseUnit_contract [4, 8, 8, 12, 16, 16, 24, 32] [4, 8, 10, 16]).2.1 4
    (by decide)

/-- C4 counterexample: on the spec's scenario input the detector does not
return 8. -/
theorem claim_c4_counterexample :
    detectBaseUnit [4, 8, 8, 12, 16, 16, 24, 32] [4, 8, 10, 16] ≠ some 8 := by decide

/-- C4 (amended): for the values [4,8,8,12,16,16,24,32] with candidates
[4,8,10,16], `detectBaseUnit` resolves the base unit to 4 — the candidate 4
divides all eight values (score 8) and so beats 8 (score 6). -/
theorem claim_c4_spacing_scenario :
    detectBaseUnit [4, 8, 8, 12, 16, 16, 24, 32] [4, 8, 10, 16] = some 4 := by decide

/-- C5: Modular-scale absence and confidence floor — `detectModularScale`
returns null on fewer than 3 values, and any returned confidence equals the
fraction of adjacent sorted pairs matching the returned ratio and is at least
0.5. -/
theorem claim_c5_confidence_floor (values : List ℚ) (tolerance : ℚ) :
    (values.length < 3 → detectModularScale values tolerance = none) ∧
    ∀ r c, detectModularScale values tolerance = some (r, c) →
      c = (pairScore (sortBy (fun a b => decide (a ≤ b)) values) r tolerance : ℚ) /
        ((values.length : ℚ) - 1) ∧
      (1 / 2 : ℚ) ≤ c := by
  constructor
  · intro hlen
    rw [detectModularScale, if_pos hlen]
  · intro r c h
    rcases detectModularScale_some values tolerance r c h with ⟨_, h1, h2⟩
    exact ⟨h1, h2⟩

/-- C5 witness: the short list [1,2] yields null, and on [12,16,20,25,32] with
8% tolerance the returned confidence 3/4 is the matching fraction of the
returned ratio 5/4 and is at least 0.5. -/
theorem claim_c5_confidence_floor_witness :
    detectModularScale [1, 2] (5 / 100) = none ∧
    ((3 / 4 : ℚ) =
      (pairScore (sortBy (fun a b => decide (a ≤ b)) [12, 16, 20, 25, 32]) (5 / 4)
        (8 / 100) : ℚ) / ((([12, 16, 20, 25, 32] : List ℚ).length : ℚ) - 1) ∧
      (1 / 2 : ℚ) ≤ (3 / 4 : ℚ)) :=
  ⟨(claim_c5_confidence_floor [1, 2] (5 / 100)).1 (by decide),
    (claim_c5_confidence_floor [12, 16, 20, 25, 32] (8 / 100)).2 (5 / 4) (3 / 4) (by decide)⟩

/-- C6 counterexample: for the sorted values 100, 168, 282.24 (adjacent ratios
both exactly 1.68) at the default tolerance 0.05, a relative-tolerance matcher
(the spec's wording, `detectModularScaleRel`) reports the Golden Ratio with
confidence 1, but the source's `detectModularScale` returns null because its
comparison `|actual − candidate| < tolerance` is absolute. -/
theorem claim_c6_counterexample :
    detectModularScale [100, 168, 7056 / 25] (5 / 100) = none ∧
    detectModularScaleRel [100, 168, 7056 / 25] (5 / 100) = some (1618 / 1000, 1) :=
  ⟨by decide, by decide⟩

/-- C6 (amended): an adjacent sorted pair counts as matching a candidate ratio
exactly when `|actualRatio − candidate| < tolerance` with an ABSOLUTE
tolerance (default 0.05; the typography analyzer passes 0.08): any returned
confidence times (n − 1) equals the number of adjacent sorted pairs satisfying
that absolute inequality for the returned ratio. -/
theorem claim_c6_absolute_tolerance (values : List ℚ) (tolerance r c : ℚ)
    (h : detectModularScale values tolerance = some (r, c)) :
    c * ((values.length : ℚ) - 1) =
      ((((sortBy (fun a b => decide (a ≤ b)) values).zip
        (sortBy (fun a b => decide (a ≤ b)) values).tail).countP
        (fun p => decide (p.1 ≠ 0) && decide (|p.2 / p.1 - r| < tolerance))) : ℚ) := by
  rcases detectModularScale_some values tolerance r c h with ⟨hlen, h1, _⟩
  have h3 : (3 : ℚ) ≤ (values.length : ℚ) := by exact_mod_cast hlen
  have hne : ((values.length : ℚ) - 1) ≠ 0 := by
    intro h0
    rw [sub_eq_zero] at h0
    linarith
  rw [h1, div_mul_cancel₀ _ hne]
  norm_cast

/-- C6 witness: on [12,16,20,25,32] at tolerance 0.08 the returned confidence
3/4 times 4 equals the 3 absolutely-matching adjacent pairs of ratio 5/4. -/
theorem claim_c6_absolute_tolerance_witness :
    (3 / 4 : ℚ) * ((([12, 16, 20, 25, 32] : List ℚ).length : ℚ) - 1) =
      ((((sortBy (fun a b => decide (a ≤ b)) ([12, 16, 20, 25, 32] : List ℚ)).zip
        (sortBy (fun a b => decide (a ≤ b)) ([12, 16, 20, 25, 32] : List ℚ)).tail).countP
        (fun p => decide (p.1 ≠ 0) && decide (|p.2 / p.1 - (5 / 4 : ℚ)| < 8 / 100))) : ℚ) :=
  claim_c6_absolute_tolerance [12, 16, 20, 25, 32] (8 / 100) (5 / 4) (3 / 4) (by decide)

/-- C7 counterexample: on the literal size list
[12,12,12,16,16,16,16,20,20,25,25,32], `detectModularScale` returns null at
the default tolerance 0.05, and Minor Second 1.067 with confidence 7/11 at the
0.08 tolerance the typography analyzer passes — in neither case ratio ≈ 1.25:
the seven ratio-1 pairs between duplicate sizes dominate. -/
theorem claim_c7_counterexample :
    detectModularScale [12, 12, 12, 16, 16, 16, 16, 20, 20, 25, 25, 32] (5 / 100) = none ∧
    detectModularScale [12, 12, 12, 16, 16, 16, 16, 20, 20, 25, 25, 32] (8 / 100) =
      some (1067 / 1000, 7 / 11) :=
  ⟨by decide, by decide⟩

/-- C7 (amended): for the deduplicated font sizes [12,16,20,25,32] px — the
typography analyzer keys sizes by their CSS string, so `identifyTypeScale`
feeds distinct values — with its 8% tolerance, `detectModularScale` reports
the Major Third ratio 1.25 with confidence 0.75 ≥ 0.5. -/
theorem claim_c7_typography_scenario :
    detectModularScale [12, 16, 20, 25, 32] (8 / 100) = some (5 / 4, 3 / 4) := by decide

/-- C8 counterexample: extracting the 3-digit hex string `#fff` records a
`ColorInfo` whose hex is the lowercase `#ffffff`, not uppercase. -/
theorem claim_c8_counterexample :
    runExtraction [(some "#fff".data, ColorUsage.text)] =
      [⟨"#ffffff".data, ⟨255, 255, 255⟩, 1, {ColorUsage.text}⟩] ∧
    jsToUpper "#ffffff".data ≠ "#ffffff".data :=
  ⟨by decide, by decide⟩

/-- C8 (amended): every `ColorInfo` recorded by the color extraction has a hex
field of exactly 7 characters, a leading `#` followed by six hex digits — but
the digits are not necessarily uppercase (3-digit shorthand expansion
preserves the input's case and `rgb()`-parsing emits lowercase; only 6-digit
passthrough and the named-color table uppercase). -/
theorem claim_c8_canonical_hex (inputs : List (Option (List Char) × ColorUsage)) :
    ∀ ci ∈ runExtraction inputs,
      ci.hex.length = 7 ∧ ci.hex.head? = some '#' ∧ ci.hex.tail.all isHexDigit = true := by
  suffices hgen : ∀ (inputs : List (Option (List Char) × ColorUsage))
      (freq : List ColorInfo),
      (∀ ci ∈ freq, ci.hex.length = 7 ∧ ci.hex.head? = some '#' ∧
        ci.hex.tail.all isHexDigit = true) →
      ∀ ci ∈ inputs.foldl (fun freq p => extractColor p.1 p.2 freq) freq,
        ci.hex.length = 7 ∧ ci.hex.head? = some '#' ∧
        ci.hex.tail.all isHexDigit = true by
    exact hgen inputs [] (by intro ci hci; cases hci)
  intro inputs
  induction inputs with
  | nil => intro freq h; exact h
  | cons p rest ih =>
    intro freq h
    rw [List.foldl_cons]
    exact ih _ (extractColor_hex_shape h)

/-- C8 witness: the record extracted from `#fff` has a 7-character `#`-led
all-hex-digit hex field. -/
theorem claim_c8_canonical_hex_witness :
    ("#ffffff".data.length = 7 ∧ "#ffffff".data.head? = some '#' ∧
      "#ffffff".data.tail.all isHexDigit = true) :=
  claim_c8_canonical_hex [(some "#fff".data, ColorUsage.text)]
    ⟨"#ffffff".data, ⟨255, 255, 255⟩, 1, {ColorUsage.text}⟩ (by decide)

/-- C9: Role exclusivity — `identifyColorRoles` keeps every input cluster in
the `all` list, and the multiset of clusters holding any role (primary,
secondary, accent, neutrals, or one of the four semantic slots) is contained
in the input clusters' multiset: counted with multiplicity, no cluster
occupies more than one role slot. -/
theorem claim_c9_role_exclusivity (clusters : List ColorCluster) :
    (identifyColorRoles clusters).all = clusters ∧
    roleOccupants (identifyColorRoles clusters) ≤ (clusters : Multiset ColorCluster) := by
  constructor
  · exact roleFold_all clusters _
  · have h := roleFold_occupants clusters
      ⟨none, none, [], [], ⟨none, none, none, none⟩, clusters⟩
    simpa [roleOccupants, optList] using h

/-- C10: Default primary font — when no font-family observation is present,
the typography analyzer returns primary font `sans-serif` with count 0 and no
secondary font. -/
theorem claim_c10_default_primary_font (observations : List (Option (List Char)))
    (hobs : ∀ o ∈ observations, o = none) :
    typographyFonts observations = (⟨"sans-serif".data, 0⟩, none) := by
  have key : ∀ (obs : List (Option (List Char))) (acc : List (List Char × ℕ)),
      (∀ o ∈ obs, o = none) →
      obs.foldl
        (fun fams obs =>
          match obs with
          | none => fams
          | some s =>
            let fam := normalizeFontFamily s
            if fams.any (fun p => decide (p.1 = fam)) then
              fams.map (fun p => if p.1 = fam then (p.1, p.2 + 1) else p)
            else fams ++ [(fam, 1)])
        acc = acc := by
    intro obs
    induction obs with
    | nil => intro acc _; rfl
    | cons o rest ih =>
      intro acc h
      rw [List.foldl_cons]
      have ho : o = none := h o (List.mem_cons_self o rest)
      subst ho
      exact ih acc (fun o' ho' => h o' (List.mem_cons_of_mem _ ho'))
  have hfam : buildFontFamilies observations = [] := key observations [] hobs
  have hty : typographyFonts observations =
      (getMostFrequent (buildFontFamilies observations),
        getSecondMostFrequent (buildFontFamilies observations)) := rfl
  rw [hty, hfam]
  rfl

/-- C10 witness: two elements with no font-family style yield the default
fonts. -/
theorem claim_c10_default_primary_font_witness :
    typographyFonts [none, none] = (⟨"sans-serif".data, 0⟩, none) :=
  claim_c10_default_primary_font [none, none] (by decide)

end DesignMirror
